import Mathlib

/-!
Verification of the TypeScript project-reference linker (`src/link.rs`).

The embedding models directories as lists of path components (`Dir`), the
keyed JSON-like configuration documents as association lists, and the
filesystem touched by the two reconciliation passes as a `LinkEnv` record of
lookup functions threaded explicitly through each pass.  Rust `Result`
propagation is modelled with `Except`/`Step`; the `.expect(..)` calls that
abort the process are modelled by the `Step.panicked` constructor.
-/

namespace TypescriptTools

/-- A directory path relative to the monorepo root, as its list of components. -/
abbrev Dir := List String

/-- The `TypescriptProjectReference` record from `typescript_config`: a single relative
path string.  Equality is structural (path equality), as derived here. -/
structure TypescriptProjectReference where
  path : String
deriving DecidableEq, Repr

/-- The action mode from `opts::Action`. -/
inductive Action
  | write
  | lint
deriving DecidableEq, Repr

/-- Modelled from the spec: `EnumeratePackageManifestsError` (defined in
`monorepo_manifest`, outside `src/`), kept opaque as a message. -/
structure EnumeratePackageManifestsError where
  message : String
deriving DecidableEq, Repr

/-- Modelled from the spec: `FromFileError` (defined in `io`, outside `src/`),
kept opaque as a message. -/
structure FromFileError where
  message : String
deriving DecidableEq, Repr

/-- Modelled from the spec: `WriteError` (defined in `configuration_file`,
outside `src/`), kept opaque as a message. -/
structure WriteError where
  message : String
deriving DecidableEq, Repr

/-- The `LinkErrorKind` enum from `link.rs`. -/
inductive LinkErrorKind
  | enumeratePackageManifests (err : EnumeratePackageManifestsError)
  | fromFile (err : FromFileError)
  | write (err : WriteError)
  | projectReferencesOutOfDate
deriving DecidableEq, Repr

/-- The `LinkError` type from `link.rs`: a wrapper around its kind. -/
structure LinkError where
  kind : LinkErrorKind
deriving DecidableEq, Repr

/-- The possible underlying causes exposed by `Error::source`. -/
inductive ErrorCause
  | enumeratePackageManifests (err : EnumeratePackageManifestsError)
  | fromFile (err : FromFileError)
  | write (err : WriteError)
deriving DecidableEq, Repr

/-- The `source` method of the `std::error::Error` impl for `LinkError`.  The
`ProjectReferencesOutOfDate` variant has no underlying cause. -/
def LinkError.source : LinkError → Option ErrorCause
  | ⟨.enumeratePackageManifests e⟩ => some (.enumeratePackageManifests e)
  | ⟨.fromFile e⟩ => some (.fromFile e)
  | ⟨.write e⟩ => some (.write e)
  | ⟨.projectReferencesOutOfDate⟩ => none

/-- Modelled from the spec: a `PackageManifest` (from `package_manifest`,
outside `src/`) exposes its directory and its declared dependency names. -/
structure PackageManifest where
  directory : Dir
  name : String
  dependencies : List String
deriving DecidableEq, Repr

/-- Modelled from the spec: the `MonorepoManifest` collaborator (outside
`src/`) exposes the two fallible manifest enumerations used by `link.rs`. -/
structure MonorepoManifest where
  internal_package_manifests :
    Except EnumeratePackageManifestsError (List PackageManifest)
  package_manifests_by_package_name :
    Except EnumeratePackageManifestsError (List (String × PackageManifest))

/-- Association-list lookup (the model of map `get`). -/
def alookup {α β : Type} [DecidableEq α] : List (α × β) → α → Option β
  | [], _ => none
  | (k, v) :: rest, a => if k = a then some v else alookup rest a

/-- Association-list insert-or-replace (the model of map `insert` /
`entry(..).or_default()` followed by mutation). -/
def aset {α β : Type} [DecidableEq α] : List (α × β) → α → β → List (α × β)
  | [], a, b => [(a, b)]
  | (k, v) :: rest, a, b =>
      if k = a then (a, b) :: rest else (k, v) :: aset rest a b

/-- A JSON value stored in a package configuration document: either a value
deserializable as `Vec<TypescriptProjectReference>`, or any other JSON value,
kept opaque. -/
inductive JValue
  | refs (references : List TypescriptProjectReference)
  | other (value : String)
deriving DecidableEq, Repr

/-- The contents of a `TypescriptConfig`: a keyed JSON-like document
(`serde_json::Map`), modelled as an association list. -/
abbrev Contents := List (String × JValue)

/-- The value handed to `serde_json::to_string_pretty` in a lint-mode report:
either the desired reference list (children pass) or a whole configuration
document (dependencies pass).  The rendering to text is abstracted. -/
inductive ReportBody
  | refs (references : List TypescriptProjectReference)
  | config (contents : Contents)
deriving DecidableEq, Repr

/-- One lint-mode console report: the path of the target file and the serialized
expected value. -/
structure Report where
  path : Dir
  body : ReportBody
deriving DecidableEq, Repr

/-- Modelled from the spec: the filesystem as seen through the configuration
file collaborator — parent configuration documents (their reference lists) and
package configuration documents keyed by directory, plus injectable write
failures. -/
structure LinkEnv where
  parentConfigs : Dir → Except FromFileError (List TypescriptProjectReference)
  parentWriteError : Dir → Option WriteError
  packageConfigs : Dir → Except FromFileError Contents
  packageWriteError : Dir → Option WriteError

/-- The result of a pass or of the whole run: a value, a returned
`LinkError`, or a panic (Rust `expect`) with its message. -/
inductive Step (α : Type)
  | ok (value : α)
  | err (error : LinkError)
  | panicked (message : String)
deriving DecidableEq, Repr

/-- The inner loop of `key_children_by_parent`: walk the directory component by
component, recording each next component as a child of the path so far. -/
def add_package_path : List (Dir × List String) → Dir → Dir → List (Dir × List String)
  | acc, _, [] => acc
  | acc, pathSoFar, c :: rest =>
      let children := (alookup acc pathSoFar).getD []
      let children' := if c ∈ children then children else children ++ [c]
      add_package_path (aset acc pathSoFar children') (pathSoFar ++ [c]) rest

/-- The function `key_children_by_parent` from `link.rs`. -/
def key_children_by_parent (acc : List (Dir × List String)) (pm : PackageManifest) :
    List (Dir × List String) :=
  add_package_path acc [] pm.directory

/-- The fold in `link_children_packages` that builds the directory hierarchy
map from the manifest list. -/
def build_hierarchy (manifests : List PackageManifest) : List (Dir × List String) :=
  manifests.foldl key_children_by_parent []

/-- The Rust `Ord` order on `String`: lexicographic by byte, equivalently by
codepoint, stated on the codepoint list so that it computes. -/
def string_le (a b : String) : Prop := a.data ≤ b.data

instance : DecidableRel string_le := fun a b =>
  inferInstanceAs (Decidable (a.data ≤ b.data))

/-- The function `create_project_references` from `link.rs`: sort the children
(`sort_unstable`; on strings the sorted result is unique, so a stable sort
models it exactly) and wrap each as a reference. -/
def create_project_references (children : List String) : List TypescriptProjectReference :=
  (List.insertionSort string_le children).map TypescriptProjectReference.mk

/-- The body of the `try_for_each` in `link_children_packages`, for one
`(directory, children)` entry of the hierarchy map. -/
def process_parent (action : Action) (st : LinkEnv × List Report × Bool)
    (entry : Dir × List String) : Except LinkError (LinkEnv × List Report × Bool) :=
  let desired := create_project_references entry.2
  match st.1.parentConfigs entry.1 with
  | .error e => .error ⟨.fromFile e⟩
  | .ok current =>
    if current = desired then .ok st
    else if action = .lint then
      .ok (st.1, st.2.1 ++ [⟨entry.1, .refs desired⟩], false)
    else
      match st.1.parentWriteError entry.1 with
      | some w => .error ⟨.write w⟩
      | none =>
          .ok ({ st.1 with
                  parentConfigs := fun d =>
                    if d = entry.1 then .ok desired else st.1.parentConfigs d },
               st.2.1, st.2.2)

/-- The `try_for_each` loop of `link_children_packages` over the hierarchy
map entries. -/
def run_children (action : Action) :
    List (Dir × List String) → LinkEnv × List Report × Bool →
    LinkEnv × List Report × Step Bool
  | [], st => (st.1, st.2.1, .ok st.2.2)
  | entry :: rest, st =>
    match process_parent action st entry with
    | .error e => (st.1, st.2.1, .err e)
    | .ok st' => run_children action rest st'

/-- The function `link_children_packages` from `link.rs`. -/
def link_children_packages (action : Action) (manifest : MonorepoManifest)
    (env : LinkEnv) : LinkEnv × List Report × Step Bool :=
  match manifest.internal_package_manifests with
  | .error e => (env, [], .err ⟨.enumeratePackageManifests e⟩)
  | .ok manifests => run_children action (build_hierarchy manifests) (env, [], true)

/-- Modelled from the spec: `PackageManifest::internal_dependencies_iter`
(outside `src/`): resolve each declared dependency name through the
name→manifest lookup; names not in the lookup are external packages and are
skipped. -/
def internal_dependencies_iter (pm : PackageManifest)
    (byName : List (String × PackageManifest)) : List PackageManifest :=
  pm.dependencies.filterMap (alookup byName)

/-- Modelled from the spec: `pathdiff::diff_paths` for two relative
directories — strip the common leading components, emit one `..` per
remaining component of the base, then append the remainder of the target. -/
def diff_paths : Dir → Dir → Dir
  | [], base => List.replicate base.length ".."
  | p, [] => p
  | x :: p, y :: b =>
      if x = y then diff_paths p b
      else List.replicate (b.length + 1) ".." ++ x :: p

/-- The model of `PathBuf::to_str` on a relative path: components joined with `/`. -/
def render_path (components : Dir) : String := String.intercalate "/" components

/-- The relative-path strings computed for the internal dependencies of one
package in `link_package_dependencies` (before sorting). -/
def dependency_paths (pm : PackageManifest)
    (byName : List (String × PackageManifest)) : List String :=
  (internal_dependencies_iter pm byName).map
    (fun dependency => render_path (diff_paths dependency.directory pm.directory))

/-- The `desired_project_references` block of `link_package_dependencies`:
sort the relative path strings, then wrap each as a reference. -/
def desired_package_references (pm : PackageManifest)
    (byName : List (String × PackageManifest)) : List TypescriptProjectReference :=
  (List.insertionSort string_le (dependency_paths pm byName)).map
    TypescriptProjectReference.mk

/-- Reading the current `references` field of a package configuration:
an absent field is an empty list; a present field that does not deserialize
as a reference list panics (`expect`). -/
def read_current_references (contents : Contents) :
    Step (List TypescriptProjectReference) :=
  match alookup contents "references" with
  | none => .ok []
  | some (.refs l) => .ok l
  | some (.other _) => .panicked "Value starting as JSON should be serializable"

/-- Phase one of `link_package_dependencies`, for one package: load its
configuration, compute desired references, compare, and return the updated
document when an update is needed. -/
def compute_package_diff (byName : List (String × PackageManifest)) (env : LinkEnv)
    (pm : PackageManifest) : Step (Option (Dir × Contents)) :=
  match env.packageConfigs pm.directory with
  | .error e => .err ⟨.fromFile e⟩
  | .ok contents =>
    let desired := desired_package_references pm byName
    match read_current_references contents with
    | .err e => .err e
    | .panicked m => .panicked m
    | .ok current =>
      if current = desired then .ok none
      else .ok (some (pm.directory, aset contents "references" (.refs desired)))

/-- Phase one of `link_package_dependencies` over all packages
(`collect::<Result<Vec<_>, _>>`): stops at the first failure, performs no
write and emits no report. -/
def compute_package_diffs (byName : List (String × PackageManifest)) (env : LinkEnv) :
    List PackageManifest → Step (List (Option (Dir × Contents)))
  | [] => .ok []
  | pm :: rest =>
    match compute_package_diff byName env pm with
    | .err e => .err e
    | .panicked m => .panicked m
    | .ok d =>
      match compute_package_diffs byName env rest with
      | .err e => .err e
      | .panicked m => .panicked m
      | .ok ds => .ok (d :: ds)

/-- Phase two of `link_package_dependencies`: act on the computed diffs —
report under `Lint`, write under `Write`, stopping at the first write
failure. -/
def apply_package_diffs (action : Action) :
    List (Dir × Contents) → LinkEnv × List Report × Bool →
    LinkEnv × List Report × Step Bool
  | [], st => (st.1, st.2.1, .ok st.2.2)
  | (directory, contents) :: rest, st =>
    if action = .lint then
      apply_package_diffs action rest
        (st.1, st.2.1 ++ [⟨directory, .config contents⟩], false)
    else
      match st.1.packageWriteError directory with
      | some w => (st.1, st.2.1, .err ⟨.write w⟩)
      | none =>
          apply_package_diffs action rest
            ({ st.1 with
                packageConfigs := fun d =>
                  if d = directory then .ok contents else st.1.packageConfigs d },
             st.2.1, st.2.2)

/-- The body of `link_package_dependencies` once the name→manifest lookup
has been obtained: phase one computes every diff, phase two acts on them. -/
def link_package_dependencies_with (action : Action) (env : LinkEnv)
    (byName : List (String × PackageManifest)) : LinkEnv × List Report × Step Bool :=
  match compute_package_diffs byName env (byName.map Prod.snd) with
  | .err e => (env, [], .err e)
  | .panicked m => (env, [], .panicked m)
  | .ok diffs => apply_package_diffs action (diffs.filterMap id) (env, [], true)

/-- The function `link_package_dependencies` from `link.rs`. -/
def link_package_dependencies (action : Action) (manifest : MonorepoManifest)
    (env : LinkEnv) : LinkEnv × List Report × Step Bool :=
  match manifest.package_manifests_by_package_name with
  | .error e => (env, [], .err ⟨.enumeratePackageManifests e⟩)
  | .ok byName => link_package_dependencies_with action env byName

/-- The function `link_typescript_project_references` from `link.rs`: run the children
pass, then the dependencies pass; manifest-load and pass failures are hit
with `.expect(..)` (a panic), and only the lint out-of-date condition is
returned as an error value. -/
def link_typescript_project_references (action : Action)
    (manifest : Except EnumeratePackageManifestsError MonorepoManifest)
    (env : LinkEnv) : LinkEnv × List Report × Step Unit :=
  match manifest with
  | .error _ => (env, [], .panicked "Unable to read monorepo manifest")
  | .ok m =>
    match link_children_packages action m env with
    | (env1, r1, .err _) => (env1, r1, .panicked "Unable to link children packages")
    | (env1, r1, .panicked msg) => (env1, r1, .panicked msg)
    | (env1, r1, .ok isChildrenLinkSuccess) =>
      match link_package_dependencies action m env1 with
      | (env2, r2, .err _) =>
          (env2, r1 ++ r2, .panicked "Unable to link internal package dependencies")
      | (env2, r2, .panicked msg) => (env2, r1 ++ r2, .panicked msg)
      | (env2, r2, .ok isDependenciesLinkSuccess) =>
        if action = Action.lint ∧ (isChildrenLinkSuccess && isDependenciesLinkSuccess) = false
        then (env2, r1 ++ r2, .err ⟨.projectReferencesOutOfDate⟩)
        else (env2, r1 ++ r2, .ok ())

instance : IsTotal String string_le :=
  ⟨fun a b => le_total a.data b.data⟩

instance : IsTrans String string_le :=
  ⟨fun _ _ _ h1 h2 => le_trans h1 h2⟩

instance : IsAntisymm String string_le :=
  ⟨fun _ _ h1 h2 => String.ext (le_antisymm h1 h2)⟩

instance : DecidableRel (fun a b : TypescriptProjectReference => string_le a.path b.path) :=
  fun a b => inferInstanceAs (Decidable (string_le a.path b.path))

/-- Stated from the words of the spec (§3), for comparison with the code: two
reference lists are equal iff they agree element-wise after each is
independently sorted. -/
abbrev spec_references_equal (a b : List TypescriptProjectReference) : Prop :=
  List.insertionSort (fun x y => string_le x.path y.path) a =
    List.insertionSort (fun x y => string_le x.path y.path) b

/-! ### Demo fixtures used by witnesses and counterexamples -/

/-- Demo package `bar` at `packages/bar`, no dependencies. -/
def barManifest : PackageManifest := ⟨["packages", "bar"], "bar", []⟩

/-- Demo package `foo` at `packages/foo`, depending on `bar`. -/
def fooManifest : PackageManifest := ⟨["packages", "foo"], "foo", ["bar"]⟩

/-- Demo name→manifest lookup for `foo` and `bar`. -/
def demoByName : List (String × PackageManifest) :=
  [("bar", barManifest), ("foo", fooManifest)]

/-- Demo package configuration for `foo`: an unrelated `compilerOptions` key
plus an empty `references` list. -/
def demoContentsFoo : Contents :=
  [("compilerOptions", .other "compiler-options"), ("references", .refs [])]

/-- Demo environment whose package configuration at `packages/foo` is
`demoContentsFoo` and whose other documents are empty and writable. -/
def demoEnv : LinkEnv where
  parentConfigs := fun _ => .ok []
  parentWriteError := fun _ => none
  packageConfigs := fun d =>
    if d = ["packages", "foo"] then .ok demoContentsFoo else .ok []
  packageWriteError := fun _ => none

/-- Demo monorepo manifest holding `foo` and `bar`. -/
def demoMono : MonorepoManifest := ⟨.ok [fooManifest, barManifest], .ok demoByName⟩

/-- Demo environment whose parent configuration at `packages` holds the
desired children in the wrong order, and whose package configurations are
`demoContentsFoo` for `foo` and an up-to-date document for `bar`. -/
def demoEnvOrderSwap : LinkEnv where
  parentConfigs := fun d =>
    if d = ["packages"] then .ok [⟨"foo"⟩, ⟨"bar"⟩]
    else if d = [] then .ok [⟨"packages"⟩]
    else .ok []
  parentWriteError := fun _ => none
  packageConfigs := fun d =>
    if d = ["packages", "foo"] then .ok demoContentsFoo
    else .ok [("references", .refs [])]
  packageWriteError := fun _ => none

/-- Demo environment whose documents are already up to date. -/
def demoEnvClean : LinkEnv where
  parentConfigs := fun d =>
    if d = ["packages"] then .ok [⟨"bar"⟩, ⟨"foo"⟩]
    else if d = [] then .ok [⟨"packages"⟩]
    else .ok []
  parentWriteError := fun _ => none
  packageConfigs := fun d =>
    if d = ["packages", "foo"] then .ok [("references", .refs [⟨"../bar"⟩])]
    else .ok [("references", .refs [])]
  packageWriteError := fun _ => none

/-- Demo environment whose parent configurations are all unreadable. -/
def demoEnvBadParent : LinkEnv where
  parentConfigs := fun _ => .error ⟨"malformed tsconfig"⟩
  parentWriteError := fun _ => none
  packageConfigs := fun _ => .ok [("references", .refs [])]
  packageWriteError := fun _ => none

/-- Demo environment whose package configuration for `foo` is unreadable. -/
def demoEnvBadFoo : LinkEnv where
  parentConfigs := fun _ => .ok []
  parentWriteError := fun _ => none
  packageConfigs := fun d =>
    if d = ["packages", "foo"] then .error ⟨"unreadable package tsconfig"⟩
    else .ok [("references", .refs [])]
  packageWriteError := fun _ => none

/-! ### Order facts about `string_le` -/

theorem string_le_iff (a b : String) : string_le a b ↔ a ≤ b :=
  String.le_iff_toList_le.symm

/-- Sorting strings is invariant under permutation of the input. -/
theorem insertionSort_string_perm_eq {c₁ c₂ : List String} (h : List.Perm c₁ c₂) :
    List.insertionSort string_le c₁ = List.insertionSort string_le c₂ :=
  List.eq_of_perm_of_sorted
    ((List.perm_insertionSort _ _).trans (h.trans (List.perm_insertionSort _ _).symm))
    (List.sorted_insertionSort _ _) (List.sorted_insertionSort _ _)

theorem sorted_map_mk_of_sorted {l : List String}
    (h : List.Sorted string_le l) :
    List.Sorted (fun a b : TypescriptProjectReference => a.path ≤ b.path)
      (l.map TypescriptProjectReference.mk) := by
  rw [List.Sorted, List.pairwise_map]
  exact h.imp (fun hab => (string_le_iff _ _).mp hab)

/-! ### Association-list lemmas -/

theorem alookup_aset_self {α β : Type} [DecidableEq α] (m : List (α × β)) (k : α) (v : β) :
    alookup (aset m k v) k = some v := by
  induction m with
  | nil => simp [aset, alookup]
  | cons kv rest ih =>
    obtain ⟨k', v'⟩ := kv
    by_cases h : k' = k
    · subst h
      simp [aset, alookup]
    · simp [aset, alookup, h, ih]

theorem alookup_aset_ne {α β : Type} [DecidableEq α] (m : List (α × β)) (k a : α) (v : β)
    (h : a ≠ k) : alookup (aset m k v) a = alookup m a := by
  have h' : k ≠ a := fun hh => h hh.symm
  induction m with
  | nil => simp [aset, alookup, h']
  | cons kv rest ih =>
    obtain ⟨k', v'⟩ := kv
    by_cases hk : k' = k
    · subst hk
      simp [aset, alookup, h']
    · by_cases ha : k' = a
      · subst ha
        simp [aset, alookup, hk]
      · simp [aset, alookup, hk, ha, ih]

/-! ### C4 — desired reference lists are sorted and deterministic -/

/-- C4: the desired project-reference list produced for any directory
(children pass) or package (dependencies pass) is sorted ascending by the
codepoint (byte) ordering of the path string, and is identical for any two inputs
that are permutations of each other. -/
theorem c4_desired_references_sorted_and_deterministic :
    (∀ children, List.Sorted (fun a b : TypescriptProjectReference => a.path ≤ b.path)
        (create_project_references children)) ∧
    (∀ c₁ c₂, List.Perm c₁ c₂ →
        create_project_references c₁ = create_project_references c₂) ∧
    (∀ pm byName, List.Sorted (fun a b : TypescriptProjectReference => a.path ≤ b.path)
        (desired_package_references pm byName)) ∧
    (∀ pm₁ byName₁ pm₂ byName₂,
        List.Perm (dependency_paths pm₁ byName₁) (dependency_paths pm₂ byName₂) →
        desired_package_references pm₁ byName₁ = desired_package_references pm₂ byName₂) := by
  refine ⟨?_, ?_, ?_, ?_⟩
  · intro children
    exact sorted_map_mk_of_sorted (List.sorted_insertionSort _ _)
  · intro c₁ c₂ h
    unfold create_project_references
    rw [insertionSort_string_perm_eq h]
  · intro pm byName
    exact sorted_map_mk_of_sorted (List.sorted_insertionSort _ _)
  · intro pm₁ b₁ pm₂ b₂ h
    unfold desired_package_references
    rw [insertionSort_string_perm_eq h]

/-- Witness for C4 at a concrete input. -/
theorem c4_witness :
    create_project_references ["b", "a"] = create_project_references ["a", "b"] ∧
    List.Sorted (fun a b : TypescriptProjectReference => a.path ≤ b.path)
      (create_project_references ["b", "a"]) :=
  ⟨c4_desired_references_sorted_and_deterministic.2.1 ["b", "a"] ["a", "b"] (by decide),
   c4_desired_references_sorted_and_deterministic.1 ["b", "a"]⟩

/-! ### C6 — only the `references` key is overwritten -/

/-- C6: when the dependencies pass updates a package configuration document,
only the `references` key of the document is set or overwritten; every other
key keeps its value across the load–mutate cycle. -/
theorem c6_field_preservation (byName : List (String × PackageManifest)) (env : LinkEnv)
    (pm : PackageManifest) (contents contents' : Contents) (d : Dir) (k : String)
    (hload : env.packageConfigs pm.directory = Except.ok contents)
    (hdiff : compute_package_diff byName env pm = .ok (some (d, contents')))
    (hk : k ≠ "references") :
    alookup contents' k = alookup contents k := by
  simp only [compute_package_diff, hload] at hdiff
  cases hrc : read_current_references contents with
  | ok current =>
    rw [hrc] at hdiff
    by_cases hcur : current = desired_package_references pm byName
    · simp [hcur] at hdiff
    · simp only [hcur, if_false, Step.ok.injEq, Option.some.injEq, Prod.mk.injEq] at hdiff
      obtain ⟨-, hc⟩ := hdiff
      rw [← hc]
      exact alookup_aset_ne contents "references" k (.refs _) hk
  | err e =>
    rw [hrc] at hdiff
    simp at hdiff
  | panicked m =>
    rw [hrc] at hdiff
    simp at hdiff

/-- Witness for C6 at a concrete input: the dependencies pass updates the
document of `foo` and the unrelated `compilerOptions` key keeps its value. -/
theorem c6_witness :
    alookup (aset demoContentsFoo "references" (.refs [⟨"../bar"⟩])) "compilerOptions" =
      alookup demoContentsFoo "compilerOptions" :=
  c6_field_preservation demoByName demoEnv fooManifest demoContentsFoo
    (aset demoContentsFoo "references" (.refs [⟨"../bar"⟩])) ["packages", "foo"]
    "compilerOptions" rfl (by decide) (by decide)

/-! ### C3 — hierarchy completeness -/

theorem add_package_path_nodup (d : Dir) (acc : List (Dir × List String)) (p : Dir)
    (h : ∀ k l, alookup acc k = some l → l.Nodup) :
    ∀ k l, alookup (add_package_path acc p d) k = some l → l.Nodup := by
  induction d generalizing acc p with
  | nil => simpa [add_package_path] using h
  | cons c rest ih =>
    simp only [add_package_path]
    apply ih
    intro k l hl
    by_cases hk : k = p
    · subst hk
      rw [alookup_aset_self] at hl
      have hv := Option.some.inj hl
      subst hv
      have hch : ((alookup acc k).getD []).Nodup := by
        cases hacc : alookup acc k with
        | none => simp
        | some l₀ => simpa using h k l₀ hacc
      by_cases hm : c ∈ (alookup acc k).getD []
      · simpa [hm] using hch
      · simp only [hm, if_false]
        refine List.nodup_append.2 ⟨hch, List.nodup_singleton c, ?_⟩
        intro a ha hac
        rw [List.mem_singleton] at hac
        exact hm (hac ▸ ha)
    · rw [alookup_aset_ne _ _ _ _ hk] at hl
      exact h k l hl

theorem add_package_path_mem_mono (d : Dir) (acc : List (Dir × List String)) (p k : Dir)
    (c : String) (l : List String) (hl : alookup acc k = some l) (hc : c ∈ l) :
    ∃ l', alookup (add_package_path acc p d) k = some l' ∧ c ∈ l' := by
  induction d generalizing acc p l with
  | nil => exact ⟨l, hl, hc⟩
  | cons x rest ih =>
    simp only [add_package_path]
    by_cases hk : k = p
    · subst hk
      refine ih _ _ _ (alookup_aset_self _ _ _) ?_
      rw [hl]
      by_cases hm : x ∈ l
      · simpa [hm] using hc
      · simp only [Option.getD_some, hm, if_false]
        exact List.mem_append_left _ hc
    · refine ih _ _ _ ?_ hc
      rw [alookup_aset_ne _ _ _ _ hk]
      exact hl

theorem add_package_path_establishes (pre : Dir) (c : String) (rest : Dir)
    (acc : List (Dir × List String)) (p : Dir) :
    ∃ l, alookup (add_package_path acc p (pre ++ c :: rest)) (p ++ pre) = some l ∧ c ∈ l := by
  induction pre generalizing acc p with
  | nil =>
    simp only [List.nil_append, add_package_path, List.append_nil]
    refine add_package_path_mem_mono rest _ _ _ _ _ (alookup_aset_self _ _ _) ?_
    by_cases hm : c ∈ (alookup acc p).getD []
    · simp [hm]
    · simp [hm]
  | cons x pre' ih =>
    simp only [List.cons_append, add_package_path]
    have h := ih (aset acc p
      (if x ∈ (alookup acc p).getD [] then (alookup acc p).getD []
       else (alookup acc p).getD [] ++ [x])) (p ++ [x])
    rw [List.append_assoc, List.singleton_append] at h
    exact h

theorem build_hierarchy_mem_mono (manifests : List PackageManifest)
    (acc : List (Dir × List String)) (k : Dir) (c : String) (l : List String)
    (hl : alookup acc k = some l) (hc : c ∈ l) :
    ∃ l', alookup (manifests.foldl key_children_by_parent acc) k = some l' ∧ c ∈ l' := by
  induction manifests generalizing acc l with
  | nil => exact ⟨l, hl, hc⟩
  | cons m ms ih =>
    simp only [List.foldl_cons]
    obtain ⟨l', h1, h2⟩ := add_package_path_mem_mono m.directory acc [] k c l hl hc
    exact ih _ _ h1 h2

theorem build_hierarchy_complete_aux (manifests : List PackageManifest)
    (acc : List (Dir × List String)) (m : PackageManifest) (hm : m ∈ manifests)
    (pre : Dir) (c : String) (rest : Dir) (hdir : m.directory = pre ++ c :: rest) :
    ∃ l, alookup (manifests.foldl key_children_by_parent acc) pre = some l ∧ c ∈ l := by
  induction manifests generalizing acc with
  | nil => cases hm
  | cons m' ms ih =>
    simp only [List.foldl_cons]
    rcases List.mem_cons.mp hm with h | h
    · subst h
      have hest := add_package_path_establishes pre c rest acc []
      rw [List.nil_append] at hest
      obtain ⟨l, h1, h2⟩ := hdir ▸ hest
      exact build_hierarchy_mem_mono ms _ _ _ _ (by simpa [key_children_by_parent] using h1) h2
    · exact ih _ h

theorem build_hierarchy_nodup (manifests : List PackageManifest)
    (acc : List (Dir × List String))
    (h : ∀ k l, alookup acc k = some l → l.Nodup) :
    ∀ k l, alookup (manifests.foldl key_children_by_parent acc) k = some l → l.Nodup := by
  induction manifests generalizing acc with
  | nil => simpa using h
  | cons m ms ih =>
    simp only [List.foldl_cons]
    exact ih _ (add_package_path_nodup m.directory acc [] h)

/-- C3: for every set of package manifests, the directory hierarchy map
contains every proper ancestor of each package directory (including the
root, the empty path) as a key, listing the next path segment as a child
exactly once; and every children list is duplicate-free. -/
theorem c3_hierarchy_completeness (manifests : List PackageManifest) :
    (∀ m ∈ manifests, ∀ pre c rest, m.directory = pre ++ c :: rest →
        ∃ l, alookup (build_hierarchy manifests) pre = some l ∧ l.count c = 1) ∧
    (∀ k l, alookup (build_hierarchy manifests) k = some l → l.Nodup) := by
  have hnodup := build_hierarchy_nodup manifests []
    (by intro k l h; simp [alookup] at h)
  constructor
  · intro m hm pre c rest hdir
    obtain ⟨l, h1, h2⟩ := build_hierarchy_complete_aux manifests [] m hm pre c rest hdir
    exact ⟨l, h1, List.count_eq_one_of_mem (hnodup pre l h1) h2⟩
  · exact hnodup

/-- Witness for C3 at a concrete input: with packages at `packages/foo` and
`packages/bar`, the key `packages` lists `foo` exactly once. -/
theorem c3_witness :
    ∃ l, alookup (build_hierarchy [fooManifest, barManifest]) ["packages"] = some l ∧
      l.count "foo" = 1 :=
  (c3_hierarchy_completeness [fooManifest, barManifest]).1 fooManifest (by decide)
    ["packages"] "foo" [] (by decide)

/-! ### C1 — when is a file left unchanged? -/

/-- C1 as stated is false on the code: a parent configuration whose current
references are the desired set in a different order is order-insensitively
equal to the desired list, yet the lint pass reports it and records failure
rather than treating it as `Unchanged`. -/
theorem c1_counterexample :
    spec_references_equal [⟨"foo"⟩, ⟨"bar"⟩] (create_project_references ["foo", "bar"]) ∧
    (link_children_packages .lint demoMono demoEnvOrderSwap).2.1 ≠ [] ∧
    (link_children_packages .lint demoMono demoEnvOrderSwap).2.2 = .ok false := by
  refine ⟨by decide, by decide, by decide⟩

/-- C1 amended: in both reconcilers the outcome of a file is `Unchanged` (no
write, no report, no flag change) iff its current reference list equals the
desired list as an ordered list — exact structural equality against the
sorted desired list, not order-insensitive equality. -/
theorem c1_unchanged_iff_exact_equality
    (action : Action) (env : LinkEnv) (reports : List Report) (flag : Bool)
    (directory : Dir) (children : List String)
    (current : List TypescriptProjectReference)
    (byName : List (String × PackageManifest)) (pm : PackageManifest)
    (contents : Contents) (pcurrent : List TypescriptProjectReference)
    (hpl : env.parentConfigs directory = Except.ok current)
    (hkl : env.packageConfigs pm.directory = Except.ok contents)
    (hkr : read_current_references contents = .ok pcurrent) :
    (process_parent action (env, reports, flag) (directory, children) =
        .ok (env, reports, flag) ↔
      current = create_project_references children) ∧
    (compute_package_diff byName env pm = .ok none ↔
      pcurrent = desired_package_references pm byName) := by
  constructor
  · by_cases hcur : current = create_project_references children
    · simp [process_parent, hpl, hcur]
    · simp only [process_parent, hpl, hcur, if_false, iff_false]
      intro h
      by_cases ha : action = Action.lint
      · simp only [ha, if_true, Step.ok.injEq] at h
        have := congrArg (fun st => st.2.1.length) (Except.ok.inj h)
        simp at this
      · simp only [ha, if_false] at h
        cases hw : env.parentWriteError directory with
        | some w => rw [hw] at h; cases h
        | none =>
          rw [hw] at h
          have henv := congrArg (fun st => st.1.parentConfigs directory) (Except.ok.inj h)
          simp only [if_pos rfl] at henv
          rw [hpl] at henv
          exact hcur (Except.ok.inj henv).symm
  · by_cases hcur : pcurrent = desired_package_references pm byName
    · simp [compute_package_diff, hkl, hkr, hcur]
    · simp only [compute_package_diff, hkl, hkr, hcur, if_false, iff_false]
      intro h
      cases h

/-- Witness for C1 (amended) at a concrete input: an up-to-date parent file
is left fully unchanged by the lint pass. -/
theorem c1_witness :
    process_parent .lint (demoEnvClean, [], true) (["packages"], ["foo", "bar"]) =
      .ok (demoEnvClean, [], true) :=
  (c1_unchanged_iff_exact_equality .lint demoEnvClean [] true ["packages"] ["foo", "bar"]
      [⟨"bar"⟩, ⟨"foo"⟩] demoByName fooManifest [("references", .refs [⟨"../bar"⟩])]
      [⟨"../bar"⟩] rfl rfl (by decide)).1.mpr (by decide)

/-! ### C5 — lint mode never writes -/

theorem process_parent_lint_env (st : LinkEnv × List Report × Bool)
    (entry : Dir × List String) (st' : LinkEnv × List Report × Bool)
    (h : process_parent .lint st entry = .ok st') : st'.1 = st.1 := by
  simp only [process_parent] at h
  cases hpc : st.1.parentConfigs entry.1 with
  | error e => rw [hpc] at h; cases h
  | ok current =>
    rw [hpc] at h
    by_cases hcur : current = create_project_references entry.2
    · simp only [hcur, if_true] at h
      cases h
      rfl
    · simp only [hcur, if_false, if_pos] at h
      cases h
      rfl

theorem run_children_lint_env (entries : List (Dir × List String))
    (st : LinkEnv × List Report × Bool) :
    (run_children .lint entries st).1 = st.1 := by
  induction entries generalizing st with
  | nil => rfl
  | cons e rest ih =>
    cases h : process_parent .lint st e with
    | error err => simp only [run_children, h]
    | ok st' =>
      simp only [run_children, h]
      rw [ih st']
      exact process_parent_lint_env st e st' h

theorem link_children_lint_env (manifest : MonorepoManifest) (env : LinkEnv) :
    (link_children_packages .lint manifest env).1 = env := by
  unfold link_children_packages
  cases h : manifest.internal_package_manifests with
  | error e => rfl
  | ok ms => exact run_children_lint_env _ _

theorem apply_package_diffs_lint_env (diffs : List (Dir × Contents))
    (st : LinkEnv × List Report × Bool) :
    (apply_package_diffs .lint diffs st).1 = st.1 := by
  induction diffs generalizing st with
  | nil => rfl
  | cons d rest ih =>
    obtain ⟨dir, c⟩ := d
    simp only [apply_package_diffs, if_pos]
    exact ih _

theorem link_dependencies_with_lint_env (byName : List (String × PackageManifest))
    (env : LinkEnv) : (link_package_dependencies_with .lint env byName).1 = env := by
  unfold link_package_dependencies_with
  cases hd : compute_package_diffs byName env (byName.map Prod.snd) with
  | err e => simp only [hd]
  | panicked m => simp only [hd]
  | ok diffs =>
    simp only [hd]
    exact apply_package_diffs_lint_env _ _

theorem link_dependencies_lint_env (manifest : MonorepoManifest) (env : LinkEnv) :
    (link_package_dependencies .lint manifest env).1 = env := by
  unfold link_package_dependencies
  cases h : manifest.package_manifests_by_package_name with
  | error e => rfl
  | ok byName => exact link_dependencies_with_lint_env byName env

/-- C5: under `Lint` neither reconciler — nor the whole orchestrated run —
changes any configuration file, even when divergence is detected and
reported, and even when a pass stops early on an error. -/
theorem c5_lint_non_mutation (manifest : MonorepoManifest)
    (manifestE : Except EnumeratePackageManifestsError MonorepoManifest) (env : LinkEnv) :
    (link_children_packages .lint manifest env).1 = env ∧
    (link_package_dependencies .lint manifest env).1 = env ∧
    (link_typescript_project_references .lint manifestE env).1 = env := by
  refine ⟨link_children_lint_env manifest env, link_dependencies_lint_env manifest env, ?_⟩
  unfold link_typescript_project_references
  cases manifestE with
  | error e => rfl
  | ok m =>
    rcases h1 : link_children_packages .lint m env with ⟨env1, r1, res1⟩
    have he1 : env1 = env := by
      have h := link_children_lint_env m env
      rw [h1] at h
      exact h
    cases res1 with
    | err e => simp only [h1]; exact he1
    | panicked msg => simp only [h1]; exact he1
    | ok b1 =>
      rcases h2 : link_package_dependencies .lint m env1 with ⟨env2, r2, res2⟩
      have he2 : env2 = env := by
        have h := link_dependencies_lint_env m env1
        rw [h2] at h
        exact h.trans he1
      cases res2 with
      | err e => simp only [h1, h2]; exact he2
      | panicked msg => simp only [h1, h2]; exact he2
      | ok b2 =>
        simp only [h1, h2]
        split <;> exact he2

/-! ### C2 — the out-of-date signal -/

theorem process_parent_flag_inv (action : Action) (st : LinkEnv × List Report × Bool)
    (entry : Dir × List String) (st' : LinkEnv × List Report × Bool)
    (h : process_parent action st entry = .ok st')
    (hinv : st.2.2 = false ↔ st.2.1 ≠ []) : st'.2.2 = false ↔ st'.2.1 ≠ [] := by
  simp only [process_parent] at h
  cases hpc : st.1.parentConfigs entry.1 with
  | error e => rw [hpc] at h; cases h
  | ok current =>
    rw [hpc] at h
    by_cases hcur : current = create_project_references entry.2
    · simp only [hcur, if_true] at h
      cases h
      exact hinv
    · simp only [hcur, if_false] at h
      by_cases ha : action = Action.lint
      · simp only [ha, if_true] at h
        cases h
        simp
      · simp only [ha, if_false] at h
        cases hw : st.1.parentWriteError entry.1 with
        | some w => rw [hw] at h; cases h
        | none =>
          rw [hw] at h
          cases h
          exact hinv

theorem run_children_flag_inv (action : Action) (entries : List (Dir × List String))
    (st : LinkEnv × List Report × Bool) (env' : LinkEnv) (r' : List Report) (b : Bool)
    (hinv : st.2.2 = false ↔ st.2.1 ≠ [])
    (h : run_children action entries st = (env', r', .ok b)) :
    b = false ↔ r' ≠ [] := by
  induction entries generalizing st with
  | nil =>
    simp only [run_children, Prod.mk.injEq] at h
    obtain ⟨-, h2, h3⟩ := h
    injection h3 with hb
    rw [← hb, ← h2]
    exact hinv
  | cons e rest ih =>
    cases hp : process_parent action st e with
    | error err =>
      simp only [run_children, hp, Prod.mk.injEq] at h
      obtain ⟨-, -, h3⟩ := h
      cases h3
    | ok st' =>
      simp only [run_children, hp] at h
      exact ih st' (process_parent_flag_inv action st e st' hp hinv) h

theorem link_children_flag (action : Action) (manifest : MonorepoManifest) (env env1 : LinkEnv)
    (r1 : List Report) (b1 : Bool)
    (h : link_children_packages action manifest env = (env1, r1, .ok b1)) :
    b1 = false ↔ r1 ≠ [] := by
  unfold link_children_packages at h
  cases hm : manifest.internal_package_manifests with
  | error e =>
    rw [hm] at h
    simp only [Prod.mk.injEq] at h
    obtain ⟨-, -, h3⟩ := h
    cases h3
  | ok ms =>
    rw [hm] at h
    exact run_children_flag_inv action _ _ env1 r1 b1 (by simp) h

theorem apply_package_diffs_flag_inv (action : Action) (diffs : List (Dir × Contents))
    (st : LinkEnv × List Report × Bool) (env' : LinkEnv) (r' : List Report) (b : Bool)
    (hinv : st.2.2 = false ↔ st.2.1 ≠ [])
    (h : apply_package_diffs action diffs st = (env', r', .ok b)) :
    b = false ↔ r' ≠ [] := by
  induction diffs generalizing st with
  | nil =>
    simp only [apply_package_diffs, Prod.mk.injEq] at h
    obtain ⟨-, h2, h3⟩ := h
    injection h3 with hb
    rw [← hb, ← h2]
    exact hinv
  | cons d rest ih =>
    obtain ⟨dir, c⟩ := d
    by_cases ha : action = Action.lint
    · subst ha
      simp only [apply_package_diffs, if_true] at h
      refine ih _ ?_ h
      simp
    · simp only [apply_package_diffs, ha, if_false] at h
      cases hw : st.1.packageWriteError dir with
      | some w =>
        rw [hw] at h
        simp only [Prod.mk.injEq] at h
        obtain ⟨-, -, h3⟩ := h
        cases h3
      | none =>
        rw [hw] at h
        refine ih _ ?_ h
        exact hinv

theorem link_dependencies_flag (action : Action) (manifest : MonorepoManifest)
    (env env1 : LinkEnv) (r1 : List Report) (b1 : Bool)
    (h : link_package_dependencies action manifest env = (env1, r1, .ok b1)) :
    b1 = false ↔ r1 ≠ [] := by
  unfold link_package_dependencies at h
  split at h
  · simp only [Prod.mk.injEq] at h
    obtain ⟨-, -, h3⟩ := h
    cases h3
  · unfold link_package_dependencies_with at h
    split at h
    · simp only [Prod.mk.injEq] at h
      obtain ⟨-, -, h3⟩ := h
      cases h3
    · simp only [Prod.mk.injEq] at h
      obtain ⟨-, -, h3⟩ := h
      cases h3
    · exact apply_package_diffs_flag_inv action _ _ env1 r1 b1 (by simp) h

/-- C2: when both passes complete, the orchestrator returns the distinct
`ProjectReferencesOutOfDate` error — which has no underlying cause — exactly
when the action is `Lint` and at least one file in either pass was divergent
(equivalently, reported); in every other case it returns success. -/
theorem c2_out_of_date_signal (action : Action) (manifest : MonorepoManifest)
    (env env1 env2 : LinkEnv) (r1 r2 : List Report) (b1 b2 : Bool)
    (h1 : link_children_packages action manifest env = (env1, r1, .ok b1))
    (h2 : link_package_dependencies action manifest env1 = (env2, r2, .ok b2)) :
    ((link_typescript_project_references action (.ok manifest) env).2.2 =
        .err ⟨.projectReferencesOutOfDate⟩ ↔
      action = Action.lint ∧ (r1 ≠ [] ∨ r2 ≠ [])) ∧
    ((link_typescript_project_references action (.ok manifest) env).2.2 =
        .err ⟨.projectReferencesOutOfDate⟩ ∨
      (link_typescript_project_references action (.ok manifest) env).2.2 = .ok ()) ∧
    LinkError.source ⟨.projectReferencesOutOfDate⟩ = none := by
  have hc := link_children_flag action manifest env env1 r1 b1 h1
  have hd := link_dependencies_flag action manifest env1 env2 r2 b2 h2
  have hb : ((b1 && b2) = false) ↔ (r1 ≠ [] ∨ r2 ≠ []) := by
    cases b1 <;> cases b2 <;> simp_all
  unfold link_typescript_project_references
  simp only [h1, h2]
  by_cases hcond : action = Action.lint ∧ (b1 && b2) = false
  · rw [if_pos hcond]
    exact ⟨iff_of_true rfl ⟨hcond.1, hb.mp hcond.2⟩, Or.inl rfl, rfl⟩
  · rw [if_neg hcond]
    refine ⟨iff_of_false (by simp) ?_, Or.inr rfl, rfl⟩
    rintro ⟨hl, hr⟩
    exact hcond ⟨hl, hb.mpr hr⟩

/-- Witness for C2 at a concrete input: a lint run over a monorepo with one
order-swapped parent file and one missing dependency reference fails with the
out-of-date signal. -/
theorem c2_witness :
    (link_typescript_project_references .lint (.ok demoMono) demoEnvOrderSwap).2.2 =
      .err ⟨.projectReferencesOutOfDate⟩ := by
  have h := (c2_out_of_date_signal .lint demoMono demoEnvOrderSwap demoEnvOrderSwap
      demoEnvOrderSwap [⟨["packages"], .refs [⟨"bar"⟩, ⟨"foo"⟩]⟩]
      [⟨["packages", "foo"], .config (aset demoContentsFoo "references" (.refs [⟨"../bar"⟩]))⟩]
      false false rfl rfl).1
  exact h.mpr ⟨rfl, Or.inl (by decide)⟩

/-! ### C7 — dependency reference paths are relative paths -/

/-- C7: for every internal dependency the desired reference path is the
relative filesystem path from the directory of the dependent package to the
directory of the dependency; in particular `packages/foo` depending on
`packages/bar` yields exactly `../bar`. -/
theorem c7_dependency_relative_paths :
    (∀ pm byName d, d ∈ internal_dependencies_iter pm byName →
        (⟨render_path (diff_paths d.directory pm.directory)⟩ : TypescriptProjectReference) ∈
          desired_package_references pm byName) ∧
    desired_package_references fooManifest demoByName = [⟨"../bar"⟩] ∧
    render_path (diff_paths barManifest.directory fooManifest.directory) = "../bar" := by
  refine ⟨?_, by decide, by decide⟩
  intro pm byName d hd
  unfold desired_package_references
  refine List.mem_map_of_mem _ ?_
  rw [List.mem_insertionSort]
  exact List.mem_map_of_mem _ hd

/-- Witness for C7 at a concrete input. -/
theorem c7_witness :
    (⟨render_path (diff_paths barManifest.directory fooManifest.directory)⟩ :
        TypescriptProjectReference) ∈ desired_package_references fooManifest demoByName :=
  c7_dependency_relative_paths.1 fooManifest demoByName barManifest (by decide)

/-! ### C9 — failures panic at the orchestrator instead of being returned -/

/-- C9 as stated is false on the code: a configuration read failure in the
children pass makes `link_typescript_project_references` abort with the
panic message of its `.expect(..)` call instead of returning the error
value (whose cause would have been inspectable) to the caller. -/
theorem c9_counterexample :
    (link_typescript_project_references .write (.ok demoMono) demoEnvBadParent).2.2 =
      .panicked "Unable to link children packages" ∧
    (link_typescript_project_references .write (.ok demoMono) demoEnvBadParent).2.2 ≠
      .err ⟨.fromFile ⟨"malformed tsconfig"⟩⟩ := by
  refine ⟨by decide, by decide⟩

/-- C9 amended: every failure propagates un-recovered out of the passes as a
returned error value whose cause `Error::source` exposes, but the
orchestrator converts manifest-enumeration failure and pass failures into
abrupt termination (the `.expect(..)` panics) instead of returning them to
its caller; only the out-of-date condition is returned as an error value. -/
theorem c9_amended_failures_panic (action : Action) (env env1 env2 : LinkEnv)
    (m : MonorepoManifest) (e₀ : EnumeratePackageManifestsError)
    (r1 r2 : List Report) (e e' : LinkError) (b1 : Bool) :
    ((link_typescript_project_references action (.error e₀) env).2.2 =
        .panicked "Unable to read monorepo manifest") ∧
    (link_children_packages action m env = (env1, r1, .err e) →
        (link_typescript_project_references action (.ok m) env).2.2 =
          .panicked "Unable to link children packages") ∧
    (link_children_packages action m env = (env1, r1, .ok b1) →
      link_package_dependencies action m env1 = (env2, r2, .err e') →
        (link_typescript_project_references action (.ok m) env).2.2 =
          .panicked "Unable to link internal package dependencies") ∧
    (∀ err, LinkError.source ⟨.enumeratePackageManifests err⟩ =
        some (.enumeratePackageManifests err)) ∧
    (∀ err, LinkError.source ⟨.fromFile err⟩ = some (.fromFile err)) ∧
    (∀ err, LinkError.source ⟨.write err⟩ = some (.write err)) := by
  refine ⟨rfl, ?_, ?_, fun _ => rfl, fun _ => rfl, fun _ => rfl⟩
  · intro h1
    unfold link_typescript_project_references
    simp only [h1]
  · intro h1 h2
    unfold link_typescript_project_references
    simp only [h1, h2]

/-- Witness for C9 (amended) at a concrete input. -/
theorem c9_witness :
    (link_typescript_project_references .lint (.ok demoMono) demoEnvBadParent).2.2 =
      .panicked "Unable to link children packages" :=
  (c9_amended_failures_panic .lint demoEnvBadParent demoEnvBadParent demoEnvBadParent
      demoMono ⟨"unused"⟩ [] [] ⟨.fromFile ⟨"malformed tsconfig"⟩⟩
      ⟨.fromFile ⟨"unused"⟩⟩ true).2.1 rfl

/-! ### C10 — the dependencies pass is two-phase -/

theorem compute_package_diffs_fails (byName : List (String × PackageManifest))
    (env : LinkEnv) (pms : List PackageManifest) (pm : PackageManifest)
    (hpm : pm ∈ pms) (hfail : ∀ d, compute_package_diff byName env pm ≠ .ok d) :
    ∀ ds, compute_package_diffs byName env pms ≠ .ok ds := by
  induction pms with
  | nil => cases hpm
  | cons p rest ih =>
    intro ds h
    simp only [compute_package_diffs] at h
    rcases List.mem_cons.mp hpm with hp | hp
    · subst hp
      cases hc : compute_package_diff byName env pm with
      | ok d => exact hfail d hc
      | err e => rw [hc] at h; cases h
      | panicked msg => rw [hc] at h; cases h
    · cases hc : compute_package_diff byName env p with
      | err e => rw [hc] at h; cases h
      | panicked msg => rw [hc] at h; cases h
      | ok d =>
        rw [hc] at h
        cases hr : compute_package_diffs byName env rest with
        | err e => rw [hr] at h; cases h
        | panicked msg => rw [hr] at h; cases h
        | ok ds' => exact ih hp ds' hr

/-- C10: the dependencies pass computes every diff before acting; if loading
or diffing the configuration of any package fails, the pass writes no
configuration file, emits no report, and does not succeed. -/
theorem c10_two_phase_no_effects (action : Action) (manifest : MonorepoManifest)
    (env : LinkEnv) (byName : List (String × PackageManifest)) (pm : PackageManifest)
    (h1 : manifest.package_manifests_by_package_name = Except.ok byName)
    (hpm : pm ∈ byName.map Prod.snd)
    (hfail : ∀ d, compute_package_diff byName env pm ≠ .ok d) :
    (link_package_dependencies action manifest env).1 = env ∧
    (link_package_dependencies action manifest env).2.1 = [] ∧
    ∀ b, (link_package_dependencies action manifest env).2.2 ≠ .ok b := by
  have hw : link_package_dependencies action manifest env =
      link_package_dependencies_with action env byName := by
    unfold link_package_dependencies
    rw [h1]
  rw [hw]
  unfold link_package_dependencies_with
  cases hd : compute_package_diffs byName env (byName.map Prod.snd) with
  | ok ds => exact absurd hd (compute_package_diffs_fails byName env _ pm hpm hfail ds)
  | err e =>
    simp only [hd]
    exact ⟨trivial, trivial, fun b hb => by cases hb⟩
  | panicked msg =>
    simp only [hd]
    exact ⟨trivial, trivial, fun b hb => by cases hb⟩

/-- Witness for C10 at a concrete input: with the configuration of `foo`
unreadable, the dependencies pass leaves the filesystem untouched and
reports nothing, in both modes. -/
theorem c10_witness :
    (link_package_dependencies .write demoMono demoEnvBadFoo).2.1 = [] ∧
    (link_package_dependencies .write demoMono demoEnvBadFoo).1 = demoEnvBadFoo :=
  have h := c10_two_phase_no_effects .write demoMono demoEnvBadFoo demoByName fooManifest
    rfl (by decide)
    (fun d hd => by
      rw [show compute_package_diff demoByName demoEnvBadFoo fooManifest =
          Step.err ⟨.fromFile ⟨"unreadable package tsconfig"⟩⟩ from rfl] at hd
      cases hd)
  ⟨h.2.1, h.1⟩

/-! ### C8 — what a lint report contains -/

theorem process_parent_reports (action : Action) (st : LinkEnv × List Report × Bool)
    (entry : Dir × List String) (st' : LinkEnv × List Report × Bool)
    (h : process_parent action st entry = .ok st') :
    st'.2.1 = st.2.1 ∨
      st'.2.1 = st.2.1 ++ [⟨entry.1, .refs (create_project_references entry.2)⟩] := by
  simp only [process_parent] at h
  cases hpc : st.1.parentConfigs entry.1 with
  | error e => rw [hpc] at h; cases h
  | ok current =>
    rw [hpc] at h
    by_cases hcur : current = create_project_references entry.2
    · simp only [hcur, if_true] at h
      cases h
      exact Or.inl rfl
    · simp only [hcur, if_false] at h
      by_cases ha : action = Action.lint
      · simp only [ha, if_true] at h
        cases h
        exact Or.inr rfl
      · simp only [ha, if_false] at h
        cases hw : st.1.parentWriteError entry.1 with
        | some w => rw [hw] at h; cases h
        | none =>
          rw [hw] at h
          cases h
          exact Or.inl rfl

theorem run_children_reports (action : Action) (entries hm : List (Dir × List String))
    (st : LinkEnv × List Report × Bool) (env' : LinkEnv) (r' : List Report)
    (res : Step Bool) (hsub : ∀ e ∈ entries, e ∈ hm)
    (h : run_children action entries st = (env', r', res)) :
    ∀ r ∈ r', r ∈ st.2.1 ∨
      ∃ e ∈ hm, r = ⟨e.1, .refs (create_project_references e.2)⟩ := by
  induction entries generalizing st with
  | nil =>
    simp only [run_children, Prod.mk.injEq] at h
    obtain ⟨-, h2, -⟩ := h
    intro r hr
    rw [← h2] at hr
    exact Or.inl hr
  | cons e rest ih =>
    cases hp : process_parent action st e with
    | error err =>
      simp only [run_children, hp, Prod.mk.injEq] at h
      obtain ⟨-, h2, -⟩ := h
      intro r hr
      rw [← h2] at hr
      exact Or.inl hr
    | ok st' =>
      simp only [run_children, hp] at h
      intro r hr
      rcases ih st' (fun e' he' => hsub e' (List.mem_cons_of_mem _ he')) h r hr with
        hmem | hex
      · rcases process_parent_reports action st e st' hp with heq | heq
        · rw [heq] at hmem
          exact Or.inl hmem
        · rw [heq] at hmem
          rcases List.mem_append.mp hmem with h1 | h2
          · exact Or.inl h1
          · rw [List.mem_singleton] at h2
            exact Or.inr ⟨e, hsub e (List.mem_cons_self e rest), h2⟩
      · exact Or.inr hex

theorem link_children_packages_ok (action : Action) (manifest : MonorepoManifest)
    (env : LinkEnv) (ms : List PackageManifest)
    (h : manifest.internal_package_manifests = Except.ok ms) :
    link_children_packages action manifest env =
      run_children action (build_hierarchy ms) (env, [], true) := by
  unfold link_children_packages
  rw [h]

theorem compute_package_diff_some (byName : List (String × PackageManifest))
    (env : LinkEnv) (pm : PackageManifest) (d : Dir × Contents)
    (h : compute_package_diff byName env pm = .ok (some d)) :
    ∃ contents, env.packageConfigs pm.directory = Except.ok contents ∧
      d = (pm.directory, aset contents "references"
            (.refs (desired_package_references pm byName))) := by
  cases hpc : env.packageConfigs pm.directory with
  | error e =>
    simp only [compute_package_diff, hpc] at h
    cases h
  | ok contents =>
    simp only [compute_package_diff, hpc] at h
    refine ⟨contents, rfl, ?_⟩
    cases hrc : read_current_references contents with
    | err e => rw [hrc] at h; cases h
    | panicked m => rw [hrc] at h; cases h
    | ok current =>
      rw [hrc] at h
      by_cases hcur : current = desired_package_references pm byName
      · simp [hcur] at h
      · simp only [hcur, if_false, Step.ok.injEq, Option.some.injEq] at h
        exact h.symm

theorem compute_package_diffs_spec (byName : List (String × PackageManifest))
    (env : LinkEnv) (pms : List PackageManifest) (diffs : List (Option (Dir × Contents)))
    (h : compute_package_diffs byName env pms = .ok diffs) :
    ∀ d ∈ diffs.filterMap id, ∃ pm ∈ pms, ∃ contents,
      env.packageConfigs pm.directory = Except.ok contents ∧
      d = (pm.directory, aset contents "references"
            (.refs (desired_package_references pm byName))) := by
  induction pms generalizing diffs with
  | nil =>
    simp only [compute_package_diffs] at h
    cases h
    intro d hd
    cases hd
  | cons p rest ih =>
    simp only [compute_package_diffs] at h
    cases hc : compute_package_diff byName env p with
    | err e => rw [hc] at h; cases h
    | panicked m => rw [hc] at h; cases h
    | ok d0 =>
      rw [hc] at h
      cases hr : compute_package_diffs byName env rest with
      | err e => rw [hr] at h; cases h
      | panicked m => rw [hr] at h; cases h
      | ok ds =>
        rw [hr] at h
        cases h
        intro d hd
        rw [List.mem_filterMap] at hd
        obtain ⟨a, ha, hda⟩ := hd
        rcases List.mem_cons.mp ha with ha0 | ha'
        · have hsome : d0 = some d := ha0 ▸ hda
          obtain ⟨c, hcc, hdd⟩ := compute_package_diff_some byName env p d (hsome ▸ hc)
          exact ⟨p, List.mem_cons_self p rest, c, hcc, hdd⟩
        · obtain ⟨pm, hpm, c, hcc, hdd⟩ :=
            ih ds hr d (List.mem_filterMap.mpr ⟨a, ha', hda⟩)
          exact ⟨pm, List.mem_cons_of_mem _ hpm, c, hcc, hdd⟩

theorem apply_package_diffs_reports (action : Action) (diffs : List (Dir × Contents))
    (st : LinkEnv × List Report × Bool) (env' : LinkEnv) (r' : List Report)
    (res : Step Bool) (h : apply_package_diffs action diffs st = (env', r', res)) :
    ∀ r ∈ r', r ∈ st.2.1 ∨ ∃ d ∈ diffs, r = ⟨d.1, .config d.2⟩ := by
  induction diffs generalizing st with
  | nil =>
    simp only [apply_package_diffs, Prod.mk.injEq] at h
    obtain ⟨-, h2, -⟩ := h
    intro r hr
    rw [← h2] at hr
    exact Or.inl hr
  | cons d rest ih =>
    obtain ⟨dir, c⟩ := d
    by_cases ha : action = Action.lint
    · subst ha
      simp only [apply_package_diffs, if_true] at h
      intro r hr
      rcases ih _ h r hr with hmem | ⟨d', hd', hrd⟩
      · rcases List.mem_append.mp hmem with h1 | h2
        · exact Or.inl h1
        · rw [List.mem_singleton] at h2
          exact Or.inr ⟨(dir, c), List.mem_cons_self _ rest, h2⟩
      · exact Or.inr ⟨d', List.mem_cons_of_mem _ hd', hrd⟩
    · simp only [apply_package_diffs, ha, if_false] at h
      cases hw : st.1.packageWriteError dir with
      | some w =>
        rw [hw] at h
        simp only [Prod.mk.injEq] at h
        obtain ⟨-, h2, -⟩ := h
        intro r hr
        rw [← h2] at hr
        exact Or.inl hr
      | none =>
        rw [hw] at h
        intro r hr
        rcases ih _ h r hr with hmem | ⟨d', hd', hrd⟩
        · exact Or.inl hmem
        · exact Or.inr ⟨d', List.mem_cons_of_mem _ hd', hrd⟩

/-- C8 is refuted for the dependencies pass by `c8_counterexample` below;
amended: under `Lint`, a children-pass report consists of the path of the
target file and exactly the desired reference list serialized, while a
dependencies-pass report consists of the path of the target file and the *entire
updated configuration document* serialized — the loaded document with its
`references` key replaced by the desired list, including every unrelated
key. -/
theorem c8_amended_report_contents (action : Action) (manifest : MonorepoManifest)
    (env : LinkEnv) (ms : List PackageManifest)
    (byName : List (String × PackageManifest))
    (hms : manifest.internal_package_manifests = Except.ok ms)
    (hbn : manifest.package_manifests_by_package_name = Except.ok byName) :
    (∀ r ∈ (link_children_packages action manifest env).2.1,
        ∃ e ∈ build_hierarchy ms,
          r = ⟨e.1, .refs (create_project_references e.2)⟩) ∧
    (∀ r ∈ (link_package_dependencies action manifest env).2.1,
        ∃ pm ∈ byName.map Prod.snd, ∃ contents,
          env.packageConfigs pm.directory = Except.ok contents ∧
          r = ⟨pm.directory, .config (aset contents "references"
                (.refs (desired_package_references pm byName)))⟩) := by
  constructor
  · intro r hr
    rw [link_children_packages_ok action manifest env ms hms] at hr
    rcases run_children_reports action (build_hierarchy ms) (build_hierarchy ms)
        (env, [], true) _ _ _ (fun e he => he) rfl r hr with hmem | hex
    · cases hmem
    · exact hex
  · intro r hr
    have hw : link_package_dependencies action manifest env =
        link_package_dependencies_with action env byName := by
      unfold link_package_dependencies
      rw [hbn]
    rw [hw] at hr
    unfold link_package_dependencies_with at hr
    cases hd : compute_package_diffs byName env (byName.map Prod.snd) with
    | err e => rw [hd] at hr; cases hr
    | panicked m => rw [hd] at hr; cases hr
    | ok diffs =>
      rw [hd] at hr
      rcases apply_package_diffs_reports action (diffs.filterMap id) (env, [], true)
          _ _ _ rfl r hr with hmem | ⟨d, hdm, hrd⟩
      · cases hmem
      · obtain ⟨pm, hpm, c, hcc, hdd⟩ :=
          compute_package_diffs_spec byName env (byName.map Prod.snd) diffs hd d hdm
        exact ⟨pm, hpm, c, hcc, by rw [hrd, hdd]⟩

/-- C8 as stated is false on the code: in the dependencies pass the lint
report serializes the whole updated configuration document (here including
the unrelated `compilerOptions` key), not only the desired reference list. -/
theorem c8_counterexample :
    (link_package_dependencies .lint demoMono demoEnvOrderSwap).2.1 =
      [⟨["packages", "foo"],
        .config (aset demoContentsFoo "references" (.refs [⟨"../bar"⟩]))⟩] ∧
    ReportBody.config (aset demoContentsFoo "references" (.refs [⟨"../bar"⟩])) ≠
      .refs [⟨"../bar"⟩] := by
  refine ⟨by decide, by decide⟩

/-- Witness for C8 (amended) at a concrete input. -/
theorem c8_witness :
    ∃ pm ∈ demoByName.map Prod.snd, ∃ contents,
      demoEnvOrderSwap.packageConfigs pm.directory = Except.ok contents ∧
      (⟨["packages", "foo"],
          .config (aset demoContentsFoo "references" (.refs [⟨"../bar"⟩]))⟩ : Report) =
        ⟨pm.directory, .config (aset contents "references"
          (.refs (desired_package_references pm demoByName)))⟩ :=
  (c8_amended_report_contents .lint demoMono demoEnvOrderSwap [fooManifest, barManifest]
      demoByName rfl rfl).2 _ (by decide)

end TypescriptTools
